import Mathlib

/-
Verification of the stream-backend audio broadcaster (src/main.py) against its
natural-language specification.  The Python module is shallowly embedded:

* bytes objects become `List ℕ`;
* the slice loop `for i in range(0, len(b), chunk_size): yield b[i:i+chunk_size]`
  of `audio_stream_generator` becomes `chunkPass` (a fuel-structural recursion,
  fuel bounded by the byte length so the function is executable);
* the module globals `_audio_bytes` and `_audio_prepared` become `StreamState`;
* `prepare_audio_in_thread` becomes a state transformer over `StreamState`,
  with the pydub decode/export black boxes supplied as a `PrepareEnv`
  environment (a `none` result models a raised exception caught by the
  handler at the bottom of the function);
* the bounded wait loop of `audio_stream_generator` (0.5 s polls, 30 s cap)
  becomes `waitAux` over half-second ticks (60 ticks = 30 s);
* `math.ceil` applied to the float `duration_ms / (1000 * 60)` becomes the
  exact ceiling over ℚ;
* `HTTPException` becomes `HTTPError` inside `Except`.
-/

namespace StreamBackend

/-- A bytes slice `b[i:j]`, as in Python slicing: drop `i`, keep `j - i`. -/
def slice (b : List ℕ) (i j : ℕ) : List ℕ := (b.drop i).take (j - i)

/-- The chunk loop of `audio_stream_generator` (src/main.py lines 120-122):
`for i in range(0, len(b), C): yield b[i:i+C]`.  `fuel` bounds the number of
iterations; `b.length` iterations always suffice when `0 < C`. -/
def chunksFromAux (C : ℕ) (b : List ℕ) : ℕ → ℕ → List (List ℕ)
  | _, 0 => []
  | i, fuel + 1 =>
    if i < b.length then slice b i (i + C) :: chunksFromAux C b (i + C) fuel else []

/-- One pass of the chunk generator over asset `b` with chunk size `C`. -/
def chunkPass (C : ℕ) (b : List ℕ) : List (List ℕ) := chunksFromAux C b 0 b.length

/-- The chunk size fixed in the code (`chunk_size = 8192`). -/
def chunk_size : ℕ := 8192

/-- Proof-side reformulation of one pass: take a chunk, recurse on the rest. -/
def chunksTD (C : ℕ) (b : List ℕ) : List (List ℕ) :=
  if h : 0 < C ∧ b ≠ [] then b.take C :: chunksTD C (b.drop C) else []
termination_by b.length
decreasing_by
  rcases h with ⟨hC, hb⟩
  have hlen : 0 < b.length := List.length_pos.mpr hb
  simp only [List.length_drop]
  omega

/-- The list of chunk lengths of one pass, computed from `L = b.length` alone. -/
def chunkLens (C : ℕ) : ℕ → ℕ → List ℕ
  | _, 0 => []
  | L, fuel + 1 => if 0 < L then min C L :: chunkLens C (L - C) fuel else []

/-- The byte stream an always-keeping-up listener observes over the first `N`
passes of the `while True` loop: `N` repetitions of one pass. -/
def passStream (C : ℕ) (b : List ℕ) (N : ℕ) : List (List ℕ) :=
  (List.replicate N (chunkPass C b)).flatten

/-- The `n`-th chunk the infinite generator emits: the nested
`while True` / `for` loops of `audio_stream_generator` flattened into a single
index (`n mod` number-of-chunks inside the current pass). -/
def genChunkSeq (C : ℕ) (b : List ℕ) (n : ℕ) : List ℕ :=
  (chunkPass C b).getD (n % (chunkPass C b).length) []

/-- The first chunk a newly started stream session yields.  In the code every
session runs its own `audio_stream_generator`, whose chunk loop always begins
at `i = 0`; no broadcast state is consulted. -/
def sessionFirstChunk (C : ℕ) (b : List ℕ) : Option (List ℕ) :=
  (chunkPass C b).head?

/-- The most recently produced chunk after some other session has already
emitted `k` chunks (what the spec calls the Last-Chunk Cache value): the
`(k-1)`-th chunk of that session's own generator sequence.  The code keeps no
such cache; this is the value the spec says a late joiner should receive. -/
def lastBroadcastChunk (C : ℕ) (b : List ℕ) (k : ℕ) : Option (List ℕ) :=
  if k = 0 then none else some (genChunkSeq C b (k - 1))

/-- Exceptions that can reach the `try` of `audio_stream_generator`. -/
inductive StreamException where
  | cancelledError : StreamException
  | otherError : String → StreamException
deriving DecidableEq

/-- How a generator invocation ends: an exception propagates, or the sequence
ends normally. -/
inductive StreamTermination where
  | raised : StreamException → StreamTermination
  | normalEnd : StreamTermination
deriving DecidableEq

/-- The `except` clauses of `audio_stream_generator` (src/main.py lines
130-135): `asyncio.CancelledError` is logged and re-raised, and any other
exception is logged and re-raised; neither is converted into a normal end of
the stream. -/
def generator_exception_result : StreamException → StreamTermination
  | .cancelledError => .raised .cancelledError
  | .otherError m => .raised (.otherError m)

/-- `max_wait = 30` seconds, counted in half-second poll ticks. -/
def max_wait_ticks : ℕ := 60

/-- The poll loop of `audio_stream_generator` (src/main.py lines 100-104):
`while not _audio_prepared and wait_time < max_wait: sleep(0.5)`.
`preparedAt t` is the value of `_audio_prepared` at tick `t`; the remaining
tick budget is carried as `fuel`, so `t` advances while `fuel` drains. -/
def waitAux (preparedAt : ℕ → Bool) : ℕ → ℕ → ℕ
  | t, 0 => t
  | t, fuel + 1 =>
    if preparedAt t = false then waitAux preparedAt (t + 1) fuel else t

/-- The tick at which the poll loop of `audio_stream_generator` stops. -/
def waitForPrepared (preparedAt : ℕ → Bool) : ℕ :=
  waitAux preparedAt 0 max_wait_ticks

/-- A FastAPI `HTTPException`: status code and detail string. -/
structure HTTPError where
  status_code : ℕ
  detail : String
deriving DecidableEq

/-- The HTTP 503 Service Unavailable status code. -/
def serviceUnavailableStatus : ℕ := 503

/-- The startup phase of `audio_stream_generator` (src/main.py lines 99-107):
poll until prepared or the 30 s budget runs out, then fail with
`HTTPException(500, "Audio preparation failed")` if `_audio_prepared` is still
false or `_audio_bytes` is `None`; otherwise streaming may begin. -/
def audio_stream_start (preparedAt : ℕ → Bool) (bytes : Option (List ℕ)) :
    Except HTTPError Unit :=
  let t := waitForPrepared preparedAt
  if preparedAt t = false ∨ bytes = none then
    Except.error ⟨500, "Audio preparation failed"⟩
  else Except.ok ()

/-- `target_minutes = math.ceil(duration_ms / (1000 * 60))` (src/main.py
line 66), with the float division modelled exactly over ℚ. -/
def target_minutes (duration_ms : ℕ) : ℕ :=
  ⌈(duration_ms : ℚ) / (1000 * 60)⌉₊

/-- `target_duration_ms = target_minutes * 60 * 1000` (src/main.py line 67). -/
def target_duration_ms (duration_ms : ℕ) : ℕ :=
  target_minutes duration_ms * 60 * 1000

/-- The silence appended by `prepare_audio_in_thread` (src/main.py lines
72-79): `target_duration_ms - duration_ms` when the audio is shorter than the
target, otherwise nothing. -/
def silence_padding_ms (duration_ms : ℕ) : ℕ :=
  if duration_ms < target_duration_ms duration_ms then
    target_duration_ms duration_ms - duration_ms
  else 0

/-- Duration of `padded_audio = audio + silence` (or `audio` unchanged). -/
def padded_duration_ms (duration_ms : ℕ) : ℕ :=
  if duration_ms < target_duration_ms duration_ms then
    duration_ms + (target_duration_ms duration_ms - duration_ms)
  else duration_ms

/-- The module globals `_audio_bytes` / `_audio_prepared` (src/main.py lines
37-38). -/
structure StreamState where
  audio_bytes : Option (List ℕ)
  audio_prepared : Bool
deriving DecidableEq

/-- What the file system reports about the asset at `AUDIO_FILE_PATH`. -/
structure AssetFile where
  present : Bool
  duration_ms : ℕ
  size_bytes : ℕ
deriving DecidableEq

/-- The dictionary returned by the `/info` handler.  Display rounding
(`round(x, 2)`) and the byte-to-megabyte conversion are elided; the exact
quantities are carried. -/
structure AudioInfo where
  file_path : String
  original_duration_minutes : ℚ
  target_duration_minutes : ℕ
  padding_needed_seconds : ℚ
  file_size_bytes : ℕ
  streaming_mode : String
  prepared : Bool
  buffer_size_bytes : ℕ
deriving DecidableEq

/-- `AUDIO_FILE_PATH = "/audio.mp3"` (src/main.py line 34). -/
def AUDIO_FILE_PATH : String := "/audio.mp3"

/-- The `/info` handler `get_audio_info` (src/main.py lines 164-189) as a
state transformer over the module globals: it reads the file system and the
globals and returns derived data; the returned state is whatever it was. -/
def get_audio_info (f : AssetFile) (s : StreamState) :
    Except HTTPError AudioInfo × StreamState :=
  if f.present = false then (Except.error ⟨404, "Audio file not found"⟩, s)
  else
    (Except.ok
      { file_path := AUDIO_FILE_PATH
        original_duration_minutes := (f.duration_ms : ℚ) / (1000 * 60)
        target_duration_minutes := target_minutes f.duration_ms
        padding_needed_seconds :=
          (target_minutes f.duration_ms * 60 : ℚ) - (f.duration_ms : ℚ) / 1000
        file_size_bytes := f.size_bytes
        streaming_mode := "continuous_loop"
        prepared := s.audio_prepared
        buffer_size_bytes := (s.audio_bytes.getD []).length }, s)

/-- The external collaborators of `prepare_audio_in_thread`:
`file_present` is `os.path.exists(AUDIO_FILE_PATH)`;
`decode_duration_ms` is the duration of `AudioSegment.from_mp3` (`none` when
decoding raises); `encode d` is the mp3 `export` of the padded audio of
duration `d` (`none` when exporting raises). -/
structure PrepareEnv where
  file_present : Bool
  decode_duration_ms : Option ℕ
  encode : ℕ → Option (List ℕ)

/-- `prepare_audio_in_thread` (src/main.py lines 41-90) as a state transformer
over the module globals.  Under the preparation lock: return immediately when
already prepared; return when the file is missing; decode, pad to the next
whole minute, export; on success assign `_audio_bytes` and then set
`_audio_prepared`.  Any exception is caught and leaves the globals as they
were. -/
def prepare_audio_in_thread (env : PrepareEnv) (s : StreamState) : StreamState :=
  if s.audio_prepared = true then s
  else if env.file_present = false then s
  else
    match env.decode_duration_ms with
    | none => s
    | some d =>
      match env.encode (padded_duration_ms d) with
      | none => s
      | some bytes => { audio_bytes := some bytes, audio_prepared := true }

/-- The preparation invariant: a set `_audio_prepared` flag means the buffer
holds actual, nonempty bytes. -/
def preparedInv (s : StreamState) : Prop :=
  s.audio_prepared = true → ∃ bytes, s.audio_bytes = some bytes ∧ bytes ≠ []

/-- A concrete preparation environment: file present, decode succeeds with a
61 s duration, export yields three bytes. -/
def env0 : PrepareEnv := ⟨true, some 61000, fun _ => some [1, 2, 3]⟩

/-- A concrete initial state: nothing prepared yet. -/
def s0 : StreamState := ⟨none, false⟩

/-- A concrete state in which preparation has already completed. -/
def sPrepared : StreamState := ⟨some [7], true⟩

lemma chunksFromAux_eq_chunksTD (C : ℕ) (hC : 0 < C) (b : List ℕ) :
    ∀ fuel i, b.length - i ≤ fuel → chunksFromAux C b i fuel = chunksTD C (b.drop i) := by
  intro fuel
  induction fuel with
  | zero =>
    intro i hi
    have hdrop : b.drop i = [] := by
      apply List.drop_eq_nil_of_le
      omega
    rw [chunksFromAux, hdrop, chunksTD]
    simp
  | succ fuel ih =>
    intro i hi
    rw [chunksFromAux]
    by_cases hlt : i < b.length
    · have hne : b.drop i ≠ [] := by
        apply List.ne_nil_of_length_pos
        simp only [List.length_drop]
        omega
      rw [if_pos hlt, chunksTD]
      rw [dif_pos ⟨hC, hne⟩]
      have hslice : slice b i (i + C) = (b.drop i).take C := by
        simp [slice]
      have hdd : (b.drop i).drop C = b.drop (i + C) := by
        rw [List.drop_drop]
      rw [hslice, hdd, ih (i + C) (by omega)]
    · rw [if_neg hlt]
      have hdrop : b.drop i = [] := by
        apply List.drop_eq_nil_of_le
        omega
      rw [hdrop, chunksTD]
      simp

lemma chunkPass_eq_chunksTD (C : ℕ) (hC : 0 < C) (b : List ℕ) :
    chunkPass C b = chunksTD C b := by
  have h := chunksFromAux_eq_chunksTD C hC b b.length 0 (by omega)
  simpa [chunkPass] using h

/-- Concatenating the chunks of one pass restores the asset bytes. -/
lemma join_chunksTD (C : ℕ) (hC : 0 < C) (b : List ℕ) :
    (chunksTD C b).flatten = b := by
  induction b using chunksTD.induct C with
  | case1 b h ih =>
    rw [chunksTD, dif_pos h]
    simp [List.flatten_cons, ih]
  | case2 b h =>
    rcases not_and_or.mp h with h1 | h2
    · omega
    · have hb : b = [] := not_not.mp h2
      rw [chunksTD, dif_neg h]
      simp [hb]

/-- The lengths of the chunks of a pass depend on the byte length alone. -/
lemma map_length_chunksTD (C : ℕ) (hC : 0 < C) (b : List ℕ) :
    (chunksTD C b).map List.length = chunkLens C b.length b.length := by
  suffices h : ∀ fuel b, (b : List ℕ).length ≤ fuel →
      (chunksTD C b).map List.length = chunkLens C b.length fuel by
    exact h b.length b le_rfl
  intro fuel
  induction fuel with
  | zero =>
    intro b hb
    have hnil : b = [] := List.length_eq_zero.mp (by omega)
    rw [hnil, chunksTD, chunkLens]
    simp
  | succ fuel ih =>
    intro b hb
    by_cases hne : b = []
    · rw [hne, chunksTD, chunkLens]
      simp
    · have hlen : 0 < b.length := List.length_pos.mpr hne
      rw [chunksTD, dif_pos ⟨hC, hne⟩, chunkLens, if_pos hlen]
      simp only [List.map_cons, List.length_take]
      have hdl : (b.drop C).length = b.length - C := List.length_drop C b
      have := ih (b.drop C) (by omega)
      rw [this, hdl]

/-- With positive chunk size and positive length, `L` drives `chunkLens`
regardless of any sufficiently large fuel value. -/
lemma chunkLens_fuel (C : ℕ) (hC : 0 < C) :
    ∀ fuel fuel2 L, L ≤ fuel → L ≤ fuel2 →
      chunkLens C L fuel = chunkLens C L fuel2 := by
  intro fuel
  induction fuel with
  | zero =>
    intro fuel2 L h1 h2
    have : L = 0 := by omega
    cases fuel2 with
    | zero => rfl
    | succ f => rw [this, chunkLens, chunkLens]; simp
  | succ fuel ih =>
    intro fuel2 L h1 h2
    cases fuel2 with
    | zero =>
      have : L = 0 := by omega
      rw [this, chunkLens, chunkLens]
      simp
    | succ f =>
      rw [chunkLens, chunkLens]
      by_cases hL : 0 < L
      · rw [if_pos hL, if_pos hL, ih f (L - C) (by omega) (by omega)]
      · rw [if_neg hL, if_neg hL]

/-- Number of chunks of one pass: the ceiling of `L / C`. -/
lemma length_chunkLens (C : ℕ) (hC : 0 < C) :
    ∀ fuel L, L ≤ fuel → (chunkLens C L fuel).length = (L + C - 1) / C := by
  intro fuel
  induction fuel with
  | zero =>
    intro L hL
    have h0 : L = 0 := by omega
    rw [h0, chunkLens]
    have : C - 1 < C := by omega
    simp [Nat.div_eq_of_lt this]
  | succ fuel ih =>
    intro L hL
    rw [chunkLens]
    by_cases h0 : 0 < L
    · rw [if_pos h0]
      simp only [List.length_cons]
      rw [ih (L - C) (by omega)]
      by_cases hle : C < L
      · have harith : L + C - 1 = (L - C + C - 1) + C := by omega
        rw [harith, Nat.add_div_right _ hC]
      · have hLC : L - C = 0 := by omega
        rw [hLC]
        have hc1 : (0 + C - 1) / C = 0 := Nat.div_eq_of_lt (by omega)
        rw [hc1]
        have hone : (L + C - 1) / C = 1 := by
          apply Nat.div_eq_of_lt_le <;> omega
        omega
    · rw [if_neg h0]
      have hL0 : L = 0 := by omega
      rw [hL0]
      have : C - 1 < C := by omega
      simp [Nat.div_eq_of_lt this]

lemma chunkLens_zero (C : ℕ) : ∀ fuel, chunkLens C 0 fuel = [] := by
  intro fuel
  cases fuel with
  | zero => rfl
  | succ f => rw [chunkLens]; simp

lemma chunkLens_ne_nil (C : ℕ) (L fuel : ℕ) (hL : 0 < L) (hf : L ≤ fuel) :
    chunkLens C L fuel ≠ [] := by
  cases fuel with
  | zero => omega
  | succ f => rw [chunkLens, if_pos hL]; simp

/-- Every chunk of a pass except possibly the last has length exactly `C`. -/
lemma chunkLens_mid (C : ℕ) (hC : 0 < C) :
    ∀ fuel L, L ≤ fuel → ∀ i, i + 1 < (chunkLens C L fuel).length →
      (chunkLens C L fuel).getD i 0 = C := by
  intro fuel
  induction fuel with
  | zero =>
    intro L hL i hi
    simp [chunkLens] at hi
  | succ fuel ih =>
    intro L hL i hi
    by_cases h0 : 0 < L
    · rw [chunkLens, if_pos h0] at hi ⊢
      cases i with
      | zero =>
        simp only [List.getD_cons_zero]
        simp only [List.length_cons] at hi
        have htail : chunkLens C (L - C) fuel ≠ [] := by
          intro hnil
          rw [hnil] at hi
          simp at hi
        have hpos : 0 < L - C := by
          by_contra hneg
          have : L - C = 0 := by omega
          rw [this, chunkLens_zero] at htail
          exact htail rfl
        omega
      | succ j =>
        simp only [List.getD_cons_succ]
        simp only [List.length_cons] at hi
        exact ih (L - C) (by omega) j (by omega)
    · rw [chunkLens, if_neg h0] at hi
      simp at hi

/-- The last chunk of a pass has length `L mod C`, or `C` when `C` divides `L`. -/
lemma chunkLens_last (C : ℕ) (hC : 0 < C) :
    ∀ fuel L, L ≤ fuel → 0 < L →
      (chunkLens C L fuel).getD ((chunkLens C L fuel).length - 1) 0 =
        if L % C = 0 then C else L % C := by
  intro fuel
  induction fuel with
  | zero =>
    intro L hL h0
    omega
  | succ fuel ih =>
    intro L hL h0
    rw [chunkLens, if_pos h0]
    by_cases hle : C < L
    · have hpos : 0 < L - C := by omega
      have htail : chunkLens C (L - C) fuel ≠ [] :=
        chunkLens_ne_nil C (L - C) fuel hpos (by omega)
      have htl : 0 < (chunkLens C (L - C) fuel).length := List.length_pos.mpr htail
      simp only [List.length_cons, Nat.add_sub_cancel]
      have hsplit : (chunkLens C (L - C) fuel).length =
          ((chunkLens C (L - C) fuel).length - 1) + 1 := by omega
      rw [hsplit, List.getD_cons_succ]
      have hmod : (L - C) % C = L % C := by
        have : L - C + C = L := by omega
        calc (L - C) % C = (L - C + C) % C := (Nat.add_mod_right _ _).symm
        _ = L % C := by rw [this]
      rw [ih (L - C) (by omega) hpos, hmod]
    · have hLC : L - C = 0 := by omega
      rw [hLC, chunkLens_zero]
      simp only [List.length_cons, List.length_nil, Nat.zero_add, Nat.sub_self,
        List.getD_cons_zero]
      by_cases heq : L = C
      · rw [heq]
        simp [Nat.mod_self]
      · have hlt : L < C := by omega
        rw [Nat.mod_eq_of_lt hlt, if_neg (by omega), Nat.min_eq_right (by omega)]

/-- The chunk at index `n` of a pass is the byte-range slice at offset `n * C`. -/
lemma chunksTD_getD (C : ℕ) (hC : 0 < C) :
    ∀ n b, (chunksTD C b).getD n [] = (b.drop (n * C)).take C := by
  intro n
  induction n with
  | zero =>
    intro b
    by_cases hb : b = []
    · rw [hb, chunksTD]
      simp
    · rw [chunksTD, dif_pos ⟨hC, hb⟩]
      simp
  | succ n ih =>
    intro b
    by_cases hb : b = []
    · rw [hb, chunksTD]
      simp
    · rw [chunksTD, dif_pos ⟨hC, hb⟩, List.getD_cons_succ, ih (b.drop C),
        List.drop_drop]
      have harith : C + n * C = (n + 1) * C := by ring
      rw [harith]

/-- No chunk of a pass is empty. -/
lemma chunksTD_ne_nil (C : ℕ) (hC : 0 < C) (b : List ℕ) :
    ∀ c ∈ chunksTD C b, c ≠ [] := by
  induction b using chunksTD.induct C with
  | case1 b h ih =>
    intro c hc
    rw [chunksTD, dif_pos h] at hc
    rcases List.mem_cons.mp hc with hhd | htl
    · rw [hhd]
      simp only [ne_eq, List.take_eq_nil_iff]
      push_neg
      exact ⟨by omega, h.2⟩
    · exact ih c htl
  | case2 b h =>
    intro c hc
    rw [chunksTD, dif_neg h] at hc
    simp at hc

lemma length_chunksTD (C : ℕ) (hC : 0 < C) (b : List ℕ) :
    (chunksTD C b).length = (b.length + C - 1) / C := by
  have h := map_length_chunksTD C hC b
  have hlen : (chunksTD C b).length = (chunkLens C b.length b.length).length := by
    rw [← h, List.length_map]
  rw [hlen, length_chunkLens C hC b.length b.length le_rfl]

lemma getD_length (ch : List (List ℕ)) : ∀ i : ℕ,
    ((ch.getD i []).length) = (ch.map List.length).getD i 0 := by
  induction ch with
  | nil => intro i; simp
  | cons a l ih =>
    intro i
    cases i with
    | zero => simp
    | succ j => simp only [List.getD_cons_succ, List.map_cons]; exact ih j

/-- The concatenated bytes of one generator pass are the asset bytes. -/
lemma flatten_chunkPass (C : ℕ) (hC : 0 < C) (b : List ℕ) :
    (chunkPass C b).flatten = b := by
  rw [chunkPass_eq_chunksTD C hC]
  exact join_chunksTD C hC b

/-- Claim C1: one pass of the chunk generator over a nonempty asset of length
`L` with chunk size `C > 0` emits `ceil(L / C)` chunks; every chunk except the
last has length `C`; the last chunk has length `L mod C`, or `C` when `C`
divides `L`; the concatenation of the chunks is exactly the asset bytes; and
for `L = 10000`, `C = 4096` the chunk lengths are `[4096, 4096, 1808]`. -/
theorem chunk_pass_correct (C : ℕ) (b : List ℕ) (hC : 0 < C) (hb : b ≠ []) :
    (chunkPass C b).length = (b.length + C - 1) / C ∧
    (∀ i, i + 1 < (chunkPass C b).length → ((chunkPass C b).getD i []).length = C) ∧
    ((chunkPass C b).getD ((chunkPass C b).length - 1) []).length =
      (if b.length % C = 0 then C else b.length % C) ∧
    (chunkPass C b).flatten = b ∧
    (∀ b2 : List ℕ, b2.length = 10000 →
      (chunkPass 4096 b2).map List.length = [4096, 4096, 1808]) := by
  have hL : 0 < b.length := List.length_pos.mpr hb
  have heq : chunkPass C b = chunksTD C b := chunkPass_eq_chunksTD C hC b
  have hmap : (chunksTD C b).map List.length = chunkLens C b.length b.length :=
    map_length_chunksTD C hC b
  have hlen : (chunkPass C b).length = (b.length + C - 1) / C := by
    rw [heq]; exact length_chunksTD C hC b
  have hlenlens : (chunkPass C b).length = (chunkLens C b.length b.length).length := by
    rw [heq, ← hmap, List.length_map]
  refine ⟨hlen, ?_, ?_, flatten_chunkPass C hC b, ?_⟩
  · intro i hi
    rw [getD_length, heq, hmap]
    exact chunkLens_mid C hC b.length b.length le_rfl i (by omega)
  · have hidx : (chunksTD C b).length = (chunkLens C b.length b.length).length := by
      rw [← hmap, List.length_map]
    rw [getD_length, heq, hmap, hidx]
    exact chunkLens_last C hC b.length b.length le_rfl hL
  · intro b2 hb2
    have hC2 : (0 : ℕ) < 4096 := by omega
    have h1 : (chunkPass 4096 b2).map List.length = chunkLens 4096 b2.length b2.length := by
      rw [chunkPass_eq_chunksTD 4096 hC2 b2]
      exact map_length_chunksTD 4096 hC2 b2
    rw [h1, hb2]
    decide

/-- Closed-form instance of Claim C1 at a concrete asset and chunk size. -/
theorem chunk_pass_correct_witness :
    (chunkPass 4 (List.range 10)).flatten = List.range 10 :=
  (chunk_pass_correct 4 (List.range 10) (by decide) (by decide)).2.2.2.1

/-- Claim C2: over its first `N` passes the generator emits exactly the asset
bytes repeated `N` times, in order; pass `N + 1` extends the stream by one
whole further pass; and the first chunk of every pass is the slice at offset
`0`, so the generator restarts from offset `0` after each pass. -/
theorem loop_stream_repeats (C : ℕ) (b : List ℕ) (N : ℕ) (hC : 0 < C) (hb : b ≠ []) :
    (passStream C b N).flatten = (List.replicate N b).flatten ∧
    passStream C b (N + 1) = passStream C b N ++ chunkPass C b ∧
    (chunkPass C b).head? = some (b.take C) := by
  refine ⟨?_, ?_, ?_⟩
  · induction N with
    | zero => simp [passStream]
    | succ n ihn =>
      simp only [passStream, List.replicate_succ, List.flatten_cons,
        List.flatten_append] at ihn ⊢
      rw [flatten_chunkPass C hC, ihn]
  · simp [passStream, List.replicate_succ']
  · rw [chunkPass_eq_chunksTD C hC, chunksTD, dif_pos ⟨hC, hb⟩]
    simp

/-- Closed-form instance of Claim C2 at a concrete asset: three passes of a
four-byte asset in two-byte chunks reproduce the asset three times. -/
theorem loop_stream_repeats_witness :
    (passStream 2 [9, 8, 7, 6] 3).flatten = (List.replicate 3 [9, 8, 7, 6]).flatten :=
  (loop_stream_repeats 2 [9, 8, 7, 6] 3 (by decide) (by decide)).1

/-- Claim C4 fails on the code: with asset `[0,1,2,3,4,5]` and chunk size `2`,
after an earlier session has produced `2` chunks the most recent chunk is
`[2, 3]`, yet a newly started session yields `[0, 1]` as its first chunk. -/
theorem late_join_counterexample :
    lastBroadcastChunk 2 [0, 1, 2, 3, 4, 5] 2 = some [2, 3] ∧
    sessionFirstChunk 2 [0, 1, 2, 3, 4, 5] = some [0, 1] ∧
    sessionFirstChunk 2 [0, 1, 2, 3, 4, 5] ≠ lastBroadcastChunk 2 [0, 1, 2, 3, 4, 5] 2 := by
  decide

/-- Claim C4 amended: a stream session started at any time yields as its first
chunk the slice of the asset at offset `0` (not the most recently broadcast
chunk — the code has no last-chunk cache), and its `n`-th chunk within a pass
is the slice at offset `n * C`, so chunks follow in order from the start of
the asset. -/
theorem session_starts_at_offset_zero (C : ℕ) (b : List ℕ) (hC : 0 < C) (hb : b ≠ []) :
    sessionFirstChunk C b = some (b.take C) ∧
    (∀ n, (chunkPass C b).getD n [] = (b.drop (n * C)).take C) := by
  constructor
  · rw [sessionFirstChunk, chunkPass_eq_chunksTD C hC, chunksTD, dif_pos ⟨hC, hb⟩]
    simp
  · intro n
    rw [chunkPass_eq_chunksTD C hC]
    exact chunksTD_getD C hC n b

/-- Closed-form instance of the amended Claim C4 at a concrete asset. -/
theorem session_starts_at_offset_zero_witness :
    sessionFirstChunk 2 [5, 6, 7, 8] = some ([5, 6, 7, 8].take 2) :=
  (session_starts_at_offset_zero 2 [5, 6, 7, 8] (by decide) (by decide)).1

lemma length_chunkPass_pos (C : ℕ) (b : List ℕ) (hC : 0 < C) (hb : b ≠ []) :
    0 < (chunkPass C b).length := by
  have hL : 0 < b.length := List.length_pos.mpr hb
  rw [chunkPass_eq_chunksTD C hC, length_chunksTD C hC]
  have h1 : 1 ≤ (b.length + C - 1) / C := (Nat.one_le_div_iff hC).mpr (by omega)
  omega

/-- Claim C7: on a prepared nonempty asset the generator is unbounded — the
chunk at every index `n` exists and is nonempty — and the exception handlers
never turn an exception into a normal end of stream; in particular
cancellation is re-raised as cancellation. -/
theorem stream_never_self_terminates (C : ℕ) (b : List ℕ) (hC : 0 < C) (hb : b ≠ []) :
    (∀ n : ℕ, genChunkSeq C b n ≠ []) ∧
    (∀ e, generator_exception_result e ≠ StreamTermination.normalEnd) ∧
    generator_exception_result StreamException.cancelledError =
      StreamTermination.raised StreamException.cancelledError := by
  refine ⟨?_, ?_, rfl⟩
  · intro n
    have hP : 0 < (chunkPass C b).length := length_chunkPass_pos C b hC hb
    have hmod : n % (chunkPass C b).length < (chunkPass C b).length :=
      Nat.mod_lt n hP
    rw [genChunkSeq, List.getD_eq_getElem _ _ hmod]
    apply chunksTD_ne_nil C hC b
    rw [← chunkPass_eq_chunksTD C hC]
    exact List.getElem_mem hmod
  · intro e
    cases e <;> simp [generator_exception_result]

/-- Closed-form instance of Claim C7 at a concrete asset and index. -/
theorem stream_never_self_terminates_witness :
    genChunkSeq 2 [1, 2, 3] 7 ≠ [] :=
  (stream_never_self_terminates 2 [1, 2, 3] (by decide) (by decide)).1 7

lemma waitAux_le (p : ℕ → Bool) : ∀ fuel t, waitAux p t fuel ≤ t + fuel := by
  intro fuel
  induction fuel with
  | zero =>
    intro t
    rw [waitAux]
    omega
  | succ f ih =>
    intro t
    rw [waitAux]
    by_cases h : p t = false
    · rw [if_pos h]
      have := ih (t + 1)
      omega
    · rw [if_neg h]
      omega

/-- Claim C3 as stated fails on the code: when preparation never completes,
the session does fail after the bounded wait, but the error carries status
code 500 (internal server error), not 503 (service unavailable). -/
theorem preparation_timeout_counterexample :
    audio_stream_start (fun _ => false) none =
      Except.error ⟨500, "Audio preparation failed"⟩ ∧
    (500 : ℕ) ≠ serviceUnavailableStatus := by
  constructor
  · rfl
  · decide

/-- Claim C3 amended: when preparation is not complete, a stream request polls
at most 60 half-second ticks (30 seconds) — it never hangs indefinitely — and
if preparation is still incomplete when the wait ends, the session raises
`HTTPException(500, "Audio preparation failed")` instead of yielding any
chunk. -/
theorem stream_wait_bounded (p : ℕ → Bool) (bytes : Option (List ℕ)) :
    waitForPrepared p ≤ 60 ∧
    (p (waitForPrepared p) = false →
      audio_stream_start p bytes =
        Except.error ⟨500, "Audio preparation failed"⟩) := by
  constructor
  · have h := waitAux_le p max_wait_ticks 0
    simpa [waitForPrepared, max_wait_ticks] using h
  · intro h
    simp only [audio_stream_start]
    rw [if_pos (Or.inl h)]

/-- Closed-form instance of the amended Claim C3: with preparation never
completing, the wait is bounded and the request errors out. -/
theorem stream_wait_bounded_witness :
    waitForPrepared (fun _ => false) ≤ 60 ∧
    audio_stream_start (fun _ => false) none =
      Except.error ⟨500, "Audio preparation failed"⟩ :=
  ⟨(stream_wait_bounded (fun _ => false) none).1,
   (stream_wait_bounded (fun _ => false) none).2 rfl⟩

/-- The ceiling of `a / b` over ℚ equals the rounded-up natural division. -/
lemma nat_ceil_div (a b : ℕ) (hb : 0 < b) :
    ⌈(a : ℚ) / b⌉₊ = (a + b - 1) / b := by
  by_cases ha : a = 0
  · rw [ha]
    norm_num
    exact (Nat.div_eq_of_lt (by omega)).symm
  · have hn0 : (a + b - 1) / b ≠ 0 := by
      have hge : b ≤ a + b - 1 := by omega
      have := (Nat.one_le_div_iff hb).mpr hge
      omega
    rw [Nat.ceil_eq_iff hn0]
    have hb' : (0 : ℚ) < (b : ℚ) := by exact_mod_cast hb
    have hdm := Nat.div_add_mod (a + b - 1) b
    have hmlt : (a + b - 1) % b < b := Nat.mod_lt _ hb
    constructor
    · rw [lt_div_iff₀ hb']
      have hnat : ((a + b - 1) / b - 1) * b < a := by
        have hmul : ((a + b - 1) / b - 1) * b = b * ((a + b - 1) / b) - b := by
          rw [Nat.sub_mul, one_mul, Nat.mul_comm]
        rw [hmul]
        omega
      exact_mod_cast hnat
    · rw [div_le_iff₀ hb']
      have hnat : a ≤ (a + b - 1) / b * b := by
        rw [Nat.mul_comm]
        omega
      exact_mod_cast hnat

/-- Claim C6: preparation pads up to the next whole-minute boundary.  The
target duration is `ceil(D / 60000) * 60000` ms; it is a multiple of 60000,
at least `D`, and less than `D + 60000` (the next boundary, not a later one);
when `D` is strictly below the target exactly `target - D` ms of silence are
appended, otherwise no padding is added; and the padded audio always has
exactly the target duration. -/
theorem prepare_padding_correct (D : ℕ) :
    target_duration_ms D = ⌈(D : ℚ) / 60000⌉₊ * 60000 ∧
    target_duration_ms D = (D + 60000 - 1) / 60000 * 60000 ∧
    target_duration_ms D % 60000 = 0 ∧
    D ≤ target_duration_ms D ∧
    target_duration_ms D < D + 60000 ∧
    (D < target_duration_ms D → silence_padding_ms D = target_duration_ms D - D) ∧
    (target_duration_ms D ≤ D → silence_padding_ms D = 0) ∧
    padded_duration_ms D = target_duration_ms D := by
  have hkey : target_minutes D = (D + 60000 - 1) / 60000 := by
    rw [target_minutes]
    have h60 : ((1000 : ℚ) * 60) = ((60000 : ℕ) : ℚ) := by norm_num
    rw [h60, nat_ceil_div D 60000 (by omega)]
  have htgt : target_duration_ms D = (D + 60000 - 1) / 60000 * 60000 := by
    rw [target_duration_ms, hkey, Nat.mul_assoc]
  have hceil : target_duration_ms D = ⌈(D : ℚ) / 60000⌉₊ * 60000 := by
    rw [target_duration_ms, hkey, Nat.mul_assoc]
    have h60 : ((60000 : ℕ) : ℚ) = (60000 : ℚ) := by norm_num
    rw [← nat_ceil_div D 60000 (by omega), h60]
  refine ⟨hceil, htgt, ?_, ?_, ?_, ?_, ?_, ?_⟩
  · rw [htgt]
    omega
  · rw [htgt]
    omega
  · rw [htgt]
    omega
  · intro h
    rw [silence_padding_ms, if_pos h]
  · intro h
    rw [silence_padding_ms, if_neg (by omega)]
  · rw [padded_duration_ms]
    by_cases h : D < target_duration_ms D
    · rw [if_pos h]
      omega
    · rw [if_neg h]
      have hle : D ≤ target_duration_ms D := by
        rw [htgt]; omega
      omega

/-- Closed-form instance of Claim C6: a 61 s asset is padded to the 2-minute
boundary with 59 s of silence. -/
theorem prepare_padding_correct_witness :
    silence_padding_ms 61000 = target_duration_ms 61000 - 61000 := by
  apply (prepare_padding_correct 61000).2.2.2.2.2.1
  have h := (prepare_padding_correct 61000).2.1
  rw [h]
  norm_num

/-- Claim C8: the `/info` handler is read-only — the module globals are the
same before and after any call, and consequently a repeated call returns the
same result. -/
theorem info_read_only (f : AssetFile) (s : StreamState) :
    (get_audio_info f s).2 = s ∧
    get_audio_info f ((get_audio_info f s).2) = get_audio_info f s := by
  have h2 : (get_audio_info f s).2 = s := by
    rw [get_audio_info]
    split <;> rfl
  exact ⟨h2, by rw [h2]⟩

/-- Case analysis on `prepare_audio_in_thread`: either the globals are left
untouched (already prepared, file missing, decode or export raised), or
decode and export both succeeded, the flag was previously unset, and the
buffer now holds the export result with the flag set. -/
lemma prepare_cases (env : PrepareEnv) (s : StreamState) :
    prepare_audio_in_thread env s = s ∨
    (∃ d bytes, env.decode_duration_ms = some d ∧
      env.encode (padded_duration_ms d) = some bytes ∧
      prepare_audio_in_thread env s =
        { audio_bytes := some bytes, audio_prepared := true } ∧
      s.audio_prepared = false) := by
  by_cases hp : s.audio_prepared = true
  · left
    rw [prepare_audio_in_thread, if_pos hp]
  · by_cases hf : env.file_present = false
    · left
      rw [prepare_audio_in_thread, if_neg hp, if_pos hf]
    · cases hd : env.decode_duration_ms with
      | none =>
        left
        simp [prepare_audio_in_thread, hp, hf, hd]
      | some d =>
        cases he : env.encode (padded_duration_ms d) with
        | none =>
          left
          simp [prepare_audio_in_thread, hp, hf, hd, he]
        | some bytes =>
          right
          refine ⟨d, bytes, rfl, he, ?_, by simpa using hp⟩
          simp [prepare_audio_in_thread, hp, hf, hd, he]

/-- Claim C9: preparation preserves the state invariant — whenever
`_audio_prepared` is true the buffer holds nonempty bytes (given that the mp3
export never returns an empty byte string); once the flag is set the state is
never changed again; and every error path leaves the state, including the
flag, untouched. -/
theorem prepare_preserves_invariant (env : PrepareEnv) (s : StreamState)
    (henc : ∀ d bytes, env.encode d = some bytes → bytes ≠ [])
    (hs : preparedInv s) :
    preparedInv (prepare_audio_in_thread env s) ∧
    (s.audio_prepared = true → prepare_audio_in_thread env s = s) ∧
    ((prepare_audio_in_thread env s).audio_prepared = false →
      prepare_audio_in_thread env s = s) := by
  rcases prepare_cases env s with h | ⟨d, bytes, hd, he, hres, hp⟩
  · rw [h]
    exact ⟨hs, fun _ => rfl, fun _ => rfl⟩
  · rw [hres]
    refine ⟨?_, ?_, ?_⟩
    · intro _
      exact ⟨bytes, rfl, henc _ _ he⟩
    · intro hcontra
      rw [hp] at hcontra
      exact absurd hcontra (by simp)
    · intro hcontra
      exact absurd hcontra (by simp)

/-- Closed-form instance of Claim C9: running preparation on the fresh state
in a healthy environment establishes the invariant. -/
theorem prepare_preserves_invariant_witness :
    preparedInv (prepare_audio_in_thread env0 s0) :=
  (prepare_preserves_invariant env0 s0
    (fun d bytes h => by
      simp only [env0] at h
      injection h with h2
      rw [← h2]
      decide)
    (fun h => by simp [s0] at h)).1

/-- Claim C10: preparation is idempotent — when `_audio_prepared` is already
true the call returns without modifying the globals, and in every case running
preparation twice leaves exactly the state of running it once. -/
theorem prepare_idempotent (env : PrepareEnv) (s : StreamState) :
    (s.audio_prepared = true → prepare_audio_in_thread env s = s) ∧
    prepare_audio_in_thread env (prepare_audio_in_thread env s) =
      prepare_audio_in_thread env s := by
  constructor
  · intro hp
    rw [prepare_audio_in_thread, if_pos hp]
  · rcases prepare_cases env s with h | ⟨d, bytes, hd, he, hres, hp⟩
    · rw [h]
      exact h
    · rw [hres]
      simp [prepare_audio_in_thread]

/-- Closed-form instance of Claim C10 at an already-prepared state: the call
is a no-op and a second run changes nothing. -/
theorem prepare_idempotent_witness :
    prepare_audio_in_thread env0 sPrepared = sPrepared ∧
    prepare_audio_in_thread env0 (prepare_audio_in_thread env0 sPrepared) =
      prepare_audio_in_thread env0 sPrepared :=
  ⟨(prepare_idempotent env0 sPrepared).1 rfl, (prepare_idempotent env0 sPrepared).2⟩

end StreamBackend
